import Mathlib

/-!
Shallow embedding of blockbase `scripts/query.py`: the entry store
(`load_blocks`), the threshold partitioner and fuzzy fallback shaping
(`query_blocks`), and the related-entry expander (`get_related`).

The two external scoring libraries (`rank_bm25.BM25Okapi.get_scores` and
`rapidfuzz` token-set ratios) are not code of this repository; their outputs
are modelled as rational score lists passed as parameters, aligned
index-by-index with the block list, exactly as `query_blocks` consumes them.
All arithmetic is over ℚ, with Python `round(x, 2)` modelled exactly
(round-half-to-even).
-/

attribute [local semireducible] Rat.mul Rat.inv Rat.add Rat.sub

/-- An entry of `blocks/index.json`, with the fields `query.py` reads. -/
structure Block where
  file : String
  topic : String
  summary : String
  connections : List String
  internal : Bool
  deriving DecidableEq

/-- The index document: two ordered sequences of entries. -/
structure IndexData where
  blocks : List Block
  patterns : List Block

/-- `load_blocks`: flatten `blocks ++ patterns` and drop internal entries. -/
def load_blocks (data : IndexData) : List Block :=
  (data.blocks ++ data.patterns).filter (fun b => !b.internal)

/-- Calibrated confident-match floor on normalised scores. -/
def MATCH_THRESHOLD : ℚ := 947/1000

/-- Calibrated partial-match floor on normalised scores. -/
def SIMILAR_FLOOR : ℚ := 578/1000

/-- Round to the nearest integer, ties to even (Python `round` to 0 places). -/
def roundHalfEven (x : ℚ) : ℤ :=
  if x - ⌊x⌋ < 1/2 then ⌊x⌋
  else if 1/2 < x - ⌊x⌋ then ⌊x⌋ + 1
  else if ⌊x⌋ % 2 = 0 then ⌊x⌋ else ⌊x⌋ + 1

/-- Python `round(x, 2)`. -/
def round2 (x : ℚ) : ℚ := (roundHalfEven (100 * x) : ℚ) / 100

/-- `scores.max()` over a list, `0.0` when the list is empty. -/
def listMax (l : List ℚ) : ℚ :=
  match l with
  | [] => 0
  | x :: xs => xs.foldl max x

/-- The first list begins the second one (on character lists). -/
def leadsChars : List Char → List Char → Bool
  | [], _ => true
  | _ :: _, [] => false
  | a :: as, b :: bs => a == b && leadsChars as bs

/-- Python substring test `needle in hay` on character lists. -/
def hasSub (needle : List Char) : List Char → Bool
  | [] => leadsChars needle []
  | b :: bs => leadsChars needle (b :: bs) || hasSub needle bs

/-- Python `needle in hay` for strings. -/
def strHas (hay needle : String) : Bool :=
  hasSub needle.data hay.data

/-- Python `str.lower()` (character-wise lowering). -/
def lowerStr (s : String) : String :=
  String.mk (s.data.map Char.toLower)

/-- `score_words`: fraction of query words occurring in the lower-cased
topic+summary text; `0` for an empty query-word list. -/
def score_words (block : Block) (query_words : List String) : ℚ :=
  let haystack := lowerStr (block.topic ++ " " ++ block.summary)
  if query_words = [] then 0
  else ((query_words.filter (fun w => strHas haystack w)).length : ℚ) /
    (query_words.length : ℚ)

/-- Stable descending insertion: place `x` before the first element whose
key is `≤ key x`. -/
def insertDesc {α : Type} (key : α → ℚ) (x : α) : List α → List α
  | [] => [x]
  | y :: ys => if key y ≤ key x then x :: y :: ys else y :: insertDesc key x ys

/-- Stable sort, descending by `key` (Python `sorted` with a negated key). -/
def sortDesc {α : Type} (key : α → ℚ) : List α → List α
  | [] => []
  | x :: xs => insertDesc key x (sortDesc key xs)

/-- What `query_blocks` returns. -/
structure QueryOutput where
  results : List (Block × ℚ)
  similar : List (Block × ℚ)
  bm25_scores : List (String × ℚ)
  method : String
  deriving DecidableEq

/-- The `bm25_scores` map: normalised score for every block. -/
def scoreMap (blocks : List Block) (raw : List ℚ) : List (String × ℚ) :=
  (blocks.zip raw).map (fun p => (p.1.file, round2 (p.2 / listMax raw)))

/-- The `ranked` list: blocks with positive raw score, normalised, stably
sorted descending by score. -/
def rankedList (blocks : List Block) (raw : List ℚ) : List (Block × ℚ) :=
  sortDesc Prod.snd
    (((blocks.zip raw).filter (fun p => decide (0 < p.2))).map
      (fun p => (p.1, round2 (p.2 / listMax raw))))

/-- The fuzzy fallback output: ratios at or above the cutoff 40, stably
sorted descending, truncated to `top_n`, each paired score divided by 100
and rounded to 2 places. -/
def fuzzyTop (blocks : List Block) (fz : List ℚ) (top_n : ℕ) : List (Block × ℚ) :=
  ((sortDesc Prod.snd ((blocks.zip fz).filter (fun p => decide ((40:ℚ) ≤ p.2)))).take
    top_n).map (fun p => (p.1, round2 (p.2 / 100)))

/-- `query_blocks`, with the external scorers' outputs passed in: `raw` is
the BM25 raw-score list and `fz` the token-set-ratio list (0–100 scale),
both aligned with `blocks`. -/
def query_blocks (blocks : List Block) (raw fz : List ℚ) (top_n : ℕ) : QueryOutput :=
  if 3/10 < listMax raw then
    ⟨((rankedList blocks raw).filter (fun p => decide (MATCH_THRESHOLD ≤ p.2))).take top_n,
     ((rankedList blocks raw).filter
       (fun p => decide (SIMILAR_FLOOR ≤ p.2) && decide (p.2 < MATCH_THRESHOLD))).take top_n,
     scoreMap blocks raw,
     "bm25"⟩
  else
    ⟨fuzzyTop blocks fz top_n, [], [], "fuzzy"⟩

/-- `query_blocks` including the external scorer's construction step:
`BM25Okapi.__init__` divides by the corpus size, so on an empty corpus the
call raises `ZeroDivisionError` before any score is produced and before the
`len(scores) > 0` guard; `none` models that raised error. -/
def query_blocks_checked (blocks : List Block) (raw fz : List ℚ) (top_n : ℕ) :
    Option QueryOutput :=
  if blocks.isEmpty then none
  else some (query_blocks blocks raw fz top_n)

/-- `candidates[conn] = max(candidates.get(conn, 0), s)` on an association
list with dict semantics: an existing key keeps its position. -/
def insertMax (cands : List (String × ℚ)) (k : String) (v : ℚ) : List (String × ℚ) :=
  if cands.any (fun p => p.1 == k) then
    cands.map (fun p => if p.1 = k then (p.1, max p.2 v) else p)
  else cands ++ [(k, max 0 v)]

/-- One step of candidate collection for a single connection target. -/
def connStep (all_blocks : List Block) (query_words : List String)
    (primary_files : List String) (cands : List (String × ℚ)) (conn : String) :
    List (String × ℚ) :=
  if conn ∈ primary_files then cands
  else
    match all_blocks.find? (fun b => decide (b.file = conn)) with
    | none => cands
    | some cand => insertMax cands conn (score_words cand query_words)

/-- Collect connection targets of the primary results, scored against the
query, keeping the maximum score per target. -/
def collectCandidates (primary : List (Block × ℚ)) (all_blocks : List Block)
    (query_words : List String) (primary_files : List String) : List (String × ℚ) :=
  primary.foldl
    (fun cands pr => pr.1.connections.foldl (connStep all_blocks query_words primary_files) cands)
    []

/-- Fallback fill: next-highest-scoring files not yet seen — on the BM25
scale when a score map is present, on the word-overlap scale otherwise. -/
def fallbackFill (all_blocks : List Block) (query_words : List String)
    (bm25_scores : List (String × ℚ)) (seen : List String) (k : ℕ) : List (String × ℚ) :=
  if bm25_scores.isEmpty then
    (sortDesc Prod.snd
      ((all_blocks.filter
        (fun b => decide (b.file ∉ seen) && decide (0 < score_words b query_words))).map
        (fun b => (b.file, score_words b query_words)))).take k
  else
    (sortDesc Prod.snd
      (bm25_scores.filter
        (fun p => decide (p.1 ∉ seen) && decide (SIMILAR_FLOOR ≤ p.2)))).take k

/-- The top-`cap` graph-hop candidates (`related` before fallback fill). -/
def graphRelated (primary : List (Block × ℚ)) (all_blocks : List Block)
    (query_words : List String) (cap : ℕ) : List (String × ℚ) :=
  (sortDesc Prod.snd
    (collectCandidates primary all_blocks query_words (primary.map (fun r => r.1.file)))).take cap

/-- The `(file, score)` pairs `get_related` resolves: top-`cap` graph-hop
candidates, then fallback fill when connections are sparse. -/
def relatedPairs (primary : List (Block × ℚ)) (all_blocks : List Block)
    (query_words : List String) (bm25_scores : List (String × ℚ)) (cap : ℕ) :
    List (String × ℚ) :=
  if (graphRelated primary all_blocks query_words cap).length < cap then
    graphRelated primary all_blocks query_words cap ++
      fallbackFill all_blocks query_words bm25_scores
        (primary.map (fun r => r.1.file) ++
          (graphRelated primary all_blocks query_words cap).map Prod.fst)
        (cap - (graphRelated primary all_blocks query_words cap).length)
  else graphRelated primary all_blocks query_words cap

/-- `get_related`: resolve the related pairs to entry objects, silently
skipping identifiers that match no entry. -/
def get_related (primary : List (Block × ℚ)) (all_blocks : List Block)
    (query_words : List String) (bm25_scores : List (String × ℚ)) (cap : ℕ) :
    List Block :=
  (relatedPairs primary all_blocks query_words bm25_scores cap).filterMap
    (fun p => all_blocks.find? (fun b => decide (b.file = p.1)))

/-! ### Concrete fixtures used to instantiate the theorems below -/

def blkA : Block := ⟨"a", "alpha", "", ["b1", "b2", "b3", "b"], false⟩

def blkB1 : Block := ⟨"b1", "q one", "", [], false⟩

def blkB2 : Block := ⟨"b2", "q two", "", [], false⟩

def blkB3 : Block := ⟨"b3", "q three", "", [], false⟩

def blkB : Block := ⟨"b", "zeta", "", [], false⟩

def cexBlocks : List Block := [blkA, blkB1, blkB2, blkB3, blkB]

def wA : Block := ⟨"wa", "t", "", ["wb"], false⟩

def wB : Block := ⟨"wb", "z", "", [], false⟩

def wBlocks : List Block := [wA, wB]

def idxW : IndexData := ⟨[blkB], [⟨"int1", "x", "", [], true⟩]⟩

def blkX0 : Block := ⟨"x0", "x", "y", [], false⟩

def blkX1 : Block := ⟨"x1", "x", "", [], false⟩

def blkX2 : Block := ⟨"x2", "x", "", [], false⟩

def blkX3 : Block := ⟨"x3", "x", "", [], false⟩

def c8Blocks : List Block := [blkX0, blkX1, blkX2, blkX3]

def c8Raw : List ℚ := [52/100, -25/100, -25/100, -25/100]

/-! ### Lemmas about the stable descending sort -/

theorem mem_insertDesc {α : Type} (key : α → ℚ) (x a : α) (l : List α) :
    a ∈ insertDesc key x l ↔ a = x ∨ a ∈ l := by
  induction l with
  | nil => simp [insertDesc]
  | cons y ys ih =>
    by_cases h : key y ≤ key x
    · simp [insertDesc, h]
    · simp only [insertDesc, if_neg h, List.mem_cons, ih]
      tauto

theorem mem_sortDesc {α : Type} (key : α → ℚ) (a : α) (l : List α) :
    a ∈ sortDesc key l ↔ a ∈ l := by
  induction l with
  | nil => simp [sortDesc]
  | cons y ys ih => simp [sortDesc, mem_insertDesc, ih]

theorem length_insertDesc {α : Type} (key : α → ℚ) (x : α) (l : List α) :
    (insertDesc key x l).length = l.length + 1 := by
  induction l with
  | nil => simp [insertDesc]
  | cons y ys ih =>
    by_cases h : key y ≤ key x
    · simp [insertDesc, h]
    · simp [insertDesc, h, ih]

theorem length_sortDesc {α : Type} (key : α → ℚ) (l : List α) :
    (sortDesc key l).length = l.length := by
  induction l with
  | nil => rfl
  | cons y ys ih => simp [sortDesc, length_insertDesc, ih]

theorem pairwise_insertDesc {α : Type} (key : α → ℚ) (x : α) (l : List α)
    (h : l.Pairwise (fun a b => key b ≤ key a)) :
    (insertDesc key x l).Pairwise (fun a b => key b ≤ key a) := by
  induction l with
  | nil => simp [insertDesc]
  | cons y ys ih =>
    rcases h with _ | ⟨hy, hys⟩
    by_cases hxy : key y ≤ key x
    · have he : insertDesc key x (y :: ys) = x :: y :: ys := by
        simp [insertDesc, hxy]
      rw [he]
      refine List.Pairwise.cons ?_ (List.Pairwise.cons hy hys)
      intro b hb
      rcases List.mem_cons.mp hb with rfl | hb
      · exact hxy
      · exact le_trans (hy b hb) hxy
    · have he : insertDesc key x (y :: ys) = y :: insertDesc key x ys := by
        simp [insertDesc, hxy]
      rw [he]
      refine List.Pairwise.cons ?_ (ih hys)
      intro b hb
      rcases (mem_insertDesc key x b ys).mp hb with rfl | hb
      · exact le_of_not_le hxy
      · exact hy b hb

theorem pairwise_sortDesc {α : Type} (key : α → ℚ) (l : List α) :
    (sortDesc key l).Pairwise (fun a b => key b ≤ key a) := by
  induction l with
  | nil => exact List.Pairwise.nil
  | cons y ys ih => exact pairwise_insertDesc key y (sortDesc key ys) ih

/-! ### Lemmas about rounding -/

theorem floor_le_roundHalfEven (x : ℚ) : ⌊x⌋ ≤ roundHalfEven x := by
  unfold roundHalfEven
  split_ifs <;> omega

theorem roundHalfEven_le_floor_add_one (x : ℚ) : roundHalfEven x ≤ ⌊x⌋ + 1 := by
  unfold roundHalfEven
  split_ifs <;> omega

theorem int_le_roundHalfEven (m : ℤ) (x : ℚ) (h : (m : ℚ) ≤ x) :
    m ≤ roundHalfEven x := by
  have : m ≤ ⌊x⌋ := Int.le_floor.mpr h
  exact le_trans this (floor_le_roundHalfEven x)

theorem roundHalfEven_le_int (m : ℤ) (x : ℚ) (h : x ≤ (m : ℚ)) :
    roundHalfEven x ≤ m := by
  have hfl : ⌊x⌋ ≤ m := by
    have := Int.floor_le_floor h
    simpa using this
  rcases lt_or_eq_of_le hfl with hlt | heq
  · exact le_trans (roundHalfEven_le_floor_add_one x) (by omega)
  · have hmx : (m : ℚ) ≤ x := by
      rw [← heq]
      exact Int.floor_le x
    have hxm : x = (m : ℚ) := le_antisymm h hmx
    subst hxm
    unfold roundHalfEven
    rw [if_pos]
    · exact hfl
    · rw [Int.floor_intCast]
      norm_num

theorem round2_nonneg (x : ℚ) (h : 0 ≤ x) : 0 ≤ round2 x := by
  unfold round2
  have h0 : (0 : ℤ) ≤ roundHalfEven (100 * x) := by
    apply int_le_roundHalfEven
    push_cast
    linarith
  have : (0 : ℚ) ≤ (roundHalfEven (100 * x) : ℚ) := by exact_mod_cast h0
  linarith [div_nonneg this (by norm_num : (0:ℚ) ≤ 100)]

theorem round2_le_one (x : ℚ) (h : x ≤ 1) : round2 x ≤ 1 := by
  unfold round2
  have h0 : roundHalfEven (100 * x) ≤ (100 : ℤ) := by
    apply roundHalfEven_le_int
    push_cast
    linarith
  have h1 : (roundHalfEven (100 * x) : ℚ) ≤ 100 := by exact_mod_cast h0
  rw [div_le_one (by norm_num : (0:ℚ) < 100)]
  exact h1

theorem round2_one : round2 1 = 1 := by decide

theorem roundHalfEven_mono (x y : ℚ) (h : x ≤ y) :
    roundHalfEven x ≤ roundHalfEven y := by
  have hf : ⌊x⌋ ≤ ⌊y⌋ := Int.floor_le_floor h
  rcases lt_or_eq_of_le hf with hlt | heq
  · refine le_trans (roundHalfEven_le_floor_add_one x) ?_
    exact le_trans (by omega) (floor_le_roundHalfEven y)
  · unfold roundHalfEven
    rw [← heq]
    have hfr : x - (⌊x⌋ : ℚ) ≤ y - (⌊x⌋ : ℚ) := by linarith
    split_ifs <;> first | omega | linarith

theorem round2_mono (x y : ℚ) (h : x ≤ y) : round2 x ≤ round2 y := by
  unfold round2
  have hr : roundHalfEven (100 * x) ≤ roundHalfEven (100 * y) :=
    roundHalfEven_mono (100 * x) (100 * y) (by linarith)
  have hq : (roundHalfEven (100 * x) : ℚ) ≤ (roundHalfEven (100 * y) : ℚ) := by
    exact_mod_cast hr
  exact (div_le_div_iff_of_pos_right (show (0:ℚ) < 100 by norm_num)).mpr hq

/-! ### Lemmas about `listMax` -/

theorem init_le_foldl_max (l : List ℚ) (a : ℚ) : a ≤ l.foldl max a := by
  induction l generalizing a with
  | nil => exact le_refl a
  | cons x xs ih => exact le_trans (le_max_left a x) (ih (max a x))

theorem mem_le_foldl_max (l : List ℚ) (a s : ℚ) (hs : s ∈ l) : s ≤ l.foldl max a := by
  induction l generalizing a with
  | nil => cases hs
  | cons x xs ih =>
    rcases List.mem_cons.mp hs with rfl | hmem
    · exact le_trans (le_max_right a s) (init_le_foldl_max xs (max a s))
    · exact ih (max a x) hmem

theorem le_listMax (l : List ℚ) (s : ℚ) (hs : s ∈ l) : s ≤ listMax l := by
  cases l with
  | nil => cases hs
  | cons x xs =>
    rcases List.mem_cons.mp hs with rfl | hmem
    · exact init_le_foldl_max xs s
    · exact mem_le_foldl_max xs x s hmem

theorem foldl_max_mem (l : List ℚ) (a : ℚ) : l.foldl max a = a ∨ l.foldl max a ∈ l := by
  induction l generalizing a with
  | nil => exact Or.inl rfl
  | cons x xs ih =>
    rcases ih (max a x) with heq | hmem
    · rcases max_choice a x with hma | hmx
      · exact Or.inl (by rw [List.foldl_cons, heq, hma])
      · refine Or.inr (List.mem_cons.mpr (Or.inl ?_))
        rw [List.foldl_cons, heq, hmx]
    · exact Or.inr (List.mem_cons.mpr (Or.inr hmem))

theorem listMax_mem (l : List ℚ) (hl : l ≠ []) : listMax l ∈ l := by
  cases l with
  | nil => exact absurd rfl hl
  | cons x xs =>
    rcases foldl_max_mem xs x with heq | hmem
    · exact List.mem_cons.mpr (Or.inl (by rw [listMax, heq]))
    · exact List.mem_cons.mpr (Or.inr (by rw [listMax]; exact hmem))

/-! ### Branch lemmas for `query_blocks` -/

theorem query_blocks_bm25 (blocks : List Block) (raw fz : List ℚ) (top_n : ℕ)
    (h : 3/10 < listMax raw) :
    query_blocks blocks raw fz top_n =
      ⟨((rankedList blocks raw).filter (fun p => decide (MATCH_THRESHOLD ≤ p.2))).take top_n,
       ((rankedList blocks raw).filter
         (fun p => decide (SIMILAR_FLOOR ≤ p.2) && decide (p.2 < MATCH_THRESHOLD))).take top_n,
       scoreMap blocks raw,
       "bm25"⟩ := by
  rw [query_blocks, if_pos h]

theorem query_blocks_fuzzy (blocks : List Block) (raw fz : List ℚ) (top_n : ℕ)
    (h : listMax raw ≤ 3/10) :
    query_blocks blocks raw fz top_n = ⟨fuzzyTop blocks fz top_n, [], [], "fuzzy"⟩ := by
  rw [query_blocks, if_neg (not_lt.mpr h)]

/-! ### Membership lemmas for the scorer outputs -/

theorem mem_rankedList (blocks : List Block) (raw : List ℚ) (p : Block × ℚ)
    (hp : p ∈ rankedList blocks raw) :
    ∃ b s, (b, s) ∈ blocks.zip raw ∧ 0 < s ∧ p = (b, round2 (s / listMax raw)) := by
  unfold rankedList at hp
  rw [mem_sortDesc] at hp
  rcases List.mem_map.mp hp with ⟨q, hq, rfl⟩
  rcases List.mem_filter.mp hq with ⟨hqz, hqpos⟩
  exact ⟨q.1, q.2, hqz, by simpa using hqpos, rfl⟩

theorem mem_scoreMap (blocks : List Block) (raw : List ℚ) (p : String × ℚ)
    (hp : p ∈ scoreMap blocks raw) :
    ∃ b s, (b, s) ∈ blocks.zip raw ∧ p = (b.file, round2 (s / listMax raw)) := by
  unfold scoreMap at hp
  rcases List.mem_map.mp hp with ⟨q, hq, rfl⟩
  exact ⟨q.1, q.2, hq, rfl⟩

theorem mem_fuzzyTop (blocks : List Block) (fz : List ℚ) (top_n : ℕ) (p : Block × ℚ)
    (hp : p ∈ fuzzyTop blocks fz top_n) :
    ∃ b r, (b, r) ∈ blocks.zip fz ∧ (40:ℚ) ≤ r ∧ p = (b, round2 (r / 100)) := by
  unfold fuzzyTop at hp
  rcases List.mem_map.mp hp with ⟨q, hq, rfl⟩
  have hq' := List.take_subset _ _ hq
  rw [mem_sortDesc] at hq'
  rcases List.mem_filter.mp hq' with ⟨hqz, hqc⟩
  exact ⟨q.1, q.2, hqz, by simpa using hqc, rfl⟩

/-! ### Key lemmas for the candidate dictionary -/

theorem keys_insertMax (c : List (String × ℚ)) (k : String) (v : ℚ) :
    (insertMax c k v).map Prod.fst = c.map Prod.fst ∧ k ∈ c.map Prod.fst ∨
    (insertMax c k v).map Prod.fst = c.map Prod.fst ++ [k] := by
  unfold insertMax
  by_cases h : c.any (fun p => p.1 == k)
  · left
    refine ⟨?_, ?_⟩
    · rw [if_pos h, List.map_map]
      have : (Prod.fst ∘ fun p : String × ℚ => if p.1 = k then (p.1, max p.2 v) else p) =
          Prod.fst := by
        funext p
        by_cases hp : p.1 = k <;> simp [hp]
      rw [this]
    · rcases List.any_eq_true.mp h with ⟨p, hp, he⟩
      have hpk : p.1 = k := by simpa using he
      exact hpk ▸ List.mem_map_of_mem Prod.fst hp
  · right
    rw [if_neg h, List.map_append]
    rfl

theorem mem_keys_insertMax_self (c : List (String × ℚ)) (k : String) (v : ℚ) :
    k ∈ (insertMax c k v).map Prod.fst := by
  rcases keys_insertMax c k v with ⟨he, hk⟩ | he
  · rw [he]; exact hk
  · rw [he]; exact List.mem_append.mpr (Or.inr (List.mem_singleton.mpr rfl))

theorem mem_keys_insertMax_of (c : List (String × ℚ)) (k k' : String) (v : ℚ)
    (h : k' ∈ c.map Prod.fst) : k' ∈ (insertMax c k v).map Prod.fst := by
  rcases keys_insertMax c k v with ⟨he, _⟩ | he
  · rw [he]; exact h
  · rw [he]; exact List.mem_append.mpr (Or.inl h)

theorem mem_keys_insertMax_elim (c : List (String × ℚ)) (k k' : String) (v : ℚ)
    (h : k' ∈ (insertMax c k v).map Prod.fst) : k' = k ∨ k' ∈ c.map Prod.fst := by
  rcases keys_insertMax c k v with ⟨he, _⟩ | he
  · rw [he] at h; exact Or.inr h
  · rw [he] at h
    rcases List.mem_append.mp h with h | h
    · exact Or.inr h
    · exact Or.inl (List.mem_singleton.mp h)

theorem mem_keys_connStep_of (all_blocks : List Block) (query_words : List String)
    (primary_files : List String) (cands : List (String × ℚ)) (conn k : String)
    (h : k ∈ cands.map Prod.fst) :
    k ∈ (connStep all_blocks query_words primary_files cands conn).map Prod.fst := by
  unfold connStep
  split_ifs with hpf
  · exact h
  · cases hfind : all_blocks.find? (fun b => decide (b.file = conn)) with
    | none => exact h
    | some cand => exact mem_keys_insertMax_of _ _ _ _ h

theorem mem_keys_connStep_elim (all_blocks : List Block) (query_words : List String)
    (primary_files : List String) (cands : List (String × ℚ)) (conn k : String)
    (h : k ∈ (connStep all_blocks query_words primary_files cands conn).map Prod.fst) :
    k ∈ cands.map Prod.fst ∨ (k = conn ∧ conn ∉ primary_files) := by
  unfold connStep at h
  by_cases hpf : conn ∈ primary_files
  · rw [if_pos hpf] at h
    exact Or.inl h
  · rw [if_neg hpf] at h
    cases hfind : all_blocks.find? (fun b => decide (b.file = conn)) with
    | none =>
      rw [hfind] at h
      exact Or.inl h
    | some cand =>
      rw [hfind] at h
      rcases mem_keys_insertMax_elim _ _ _ _ h with hk | hk
      · exact Or.inr ⟨hk, hpf⟩
      · exact Or.inl hk

theorem mem_keys_connStep_self (all_blocks : List Block) (query_words : List String)
    (primary_files : List String) (cands : List (String × ℚ)) (conn : String) (cand : Block)
    (hpf : conn ∉ primary_files)
    (hfind : all_blocks.find? (fun b => decide (b.file = conn)) = some cand) :
    conn ∈ (connStep all_blocks query_words primary_files cands conn).map Prod.fst := by
  unfold connStep
  rw [if_neg hpf, hfind]
  exact mem_keys_insertMax_self _ _ _

theorem mem_keys_foldl_connStep_of (all_blocks : List Block) (query_words : List String)
    (primary_files : List String) (conns : List String) (cands : List (String × ℚ))
    (k : String) (h : k ∈ cands.map Prod.fst) :
    k ∈ (conns.foldl (connStep all_blocks query_words primary_files) cands).map Prod.fst := by
  induction conns generalizing cands with
  | nil => exact h
  | cons c cs ih =>
    exact ih _ (mem_keys_connStep_of all_blocks query_words primary_files cands c k h)

theorem mem_keys_foldl_connStep_elim (all_blocks : List Block) (query_words : List String)
    (primary_files : List String) (conns : List String) (cands : List (String × ℚ))
    (k : String)
    (h : k ∈ (conns.foldl (connStep all_blocks query_words primary_files) cands).map Prod.fst) :
    k ∈ cands.map Prod.fst ∨ k ∉ primary_files := by
  induction conns generalizing cands with
  | nil => exact Or.inl h
  | cons c cs ih =>
    rcases ih _ h with hmem | hnp
    · rcases mem_keys_connStep_elim all_blocks query_words primary_files cands c k hmem with
        hmem' | ⟨rfl, hnp⟩
      · exact Or.inl hmem'
      · exact Or.inr hnp
    · exact Or.inr hnp

theorem mem_keys_foldl_connStep_self (all_blocks : List Block) (query_words : List String)
    (primary_files : List String) (conns : List String) (cands : List (String × ℚ))
    (conn : String) (cand : Block) (hc : conn ∈ conns) (hpf : conn ∉ primary_files)
    (hfind : all_blocks.find? (fun b => decide (b.file = conn)) = some cand) :
    conn ∈ (conns.foldl (connStep all_blocks query_words primary_files) cands).map Prod.fst := by
  induction conns generalizing cands with
  | nil => cases hc
  | cons c cs ih =>
    rcases List.mem_cons.mp hc with rfl | hmem
    · exact mem_keys_foldl_connStep_of all_blocks query_words primary_files cs _ conn
        (mem_keys_connStep_self all_blocks query_words primary_files cands conn cand hpf hfind)
    · exact ih _ hmem

theorem mem_keys_outer_foldl_of (primary : List (Block × ℚ)) (all_blocks : List Block)
    (query_words : List String) (primary_files : List String) (cands : List (String × ℚ))
    (k : String) (h : k ∈ cands.map Prod.fst) :
    k ∈ (primary.foldl
      (fun cands pr => pr.1.connections.foldl (connStep all_blocks query_words primary_files) cands)
      cands).map Prod.fst := by
  induction primary generalizing cands with
  | nil => exact h
  | cons pr prs ih =>
    exact ih _ (mem_keys_foldl_connStep_of all_blocks query_words primary_files _ _ k h)

theorem mem_keys_outer_foldl_elim (primary : List (Block × ℚ)) (all_blocks : List Block)
    (query_words : List String) (primary_files : List String) (cands : List (String × ℚ))
    (k : String)
    (h : k ∈ (primary.foldl
      (fun cands pr => pr.1.connections.foldl (connStep all_blocks query_words primary_files) cands)
      cands).map Prod.fst) :
    k ∈ cands.map Prod.fst ∨ k ∉ primary_files := by
  induction primary generalizing cands with
  | nil => exact Or.inl h
  | cons pr prs ih =>
    rcases ih _ h with hmem | hnp
    · exact mem_keys_foldl_connStep_elim all_blocks query_words primary_files _ _ k hmem
    · exact Or.inr hnp

theorem mem_keys_collectCandidates_elim (primary : List (Block × ℚ)) (all_blocks : List Block)
    (query_words : List String) (primary_files : List String) (k : String)
    (h : k ∈ (collectCandidates primary all_blocks query_words primary_files).map Prod.fst) :
    k ∉ primary_files := by
  rcases mem_keys_outer_foldl_elim primary all_blocks query_words primary_files [] k h with
    hmem | hnp
  · cases hmem
  · exact hnp

theorem mem_keys_collectCandidates_self (primary : List (Block × ℚ)) (all_blocks : List Block)
    (query_words : List String) (primary_files : List String) (A : Block) (s : ℚ)
    (conn : String) (cand : Block) (hA : (A, s) ∈ primary) (hc : conn ∈ A.connections)
    (hpf : conn ∉ primary_files)
    (hfind : all_blocks.find? (fun b => decide (b.file = conn)) = some cand) :
    conn ∈ (collectCandidates primary all_blocks query_words primary_files).map Prod.fst := by
  unfold collectCandidates
  have main : ∀ (prs : List (Block × ℚ)) (cands : List (String × ℚ)), (A, s) ∈ prs →
      conn ∈ (prs.foldl
        (fun cands pr => pr.1.connections.foldl (connStep all_blocks query_words primary_files) cands)
        cands).map Prod.fst := by
    intro prs
    induction prs with
    | nil => intro cands hmem; cases hmem
    | cons pr rest ih =>
      intro cands hmem
      rcases List.mem_cons.mp hmem with heq | hmem'
      · rw [List.foldl_cons]
        refine mem_keys_outer_foldl_of rest all_blocks query_words primary_files _ conn ?_
        have : pr.1 = A := by rw [← heq]
        rw [this]
        exact mem_keys_foldl_connStep_self all_blocks query_words primary_files
          A.connections cands conn cand hc hpf hfind
      · rw [List.foldl_cons]
        exact ih _ hmem'
  exact main primary [] hA

/-! ### Structure lemmas for `relatedPairs` and `get_related` -/

theorem length_graphRelated_le (primary : List (Block × ℚ)) (all_blocks : List Block)
    (query_words : List String) (cap : ℕ) :
    (graphRelated primary all_blocks query_words cap).length ≤ cap := by
  unfold graphRelated
  rw [List.length_take]
  exact min_le_left _ _

theorem length_fallbackFill_le (all_blocks : List Block) (query_words : List String)
    (bm25_scores : List (String × ℚ)) (seen : List String) (k : ℕ) :
    (fallbackFill all_blocks query_words bm25_scores seen k).length ≤ k := by
  unfold fallbackFill
  split_ifs <;> (rw [List.length_take]; exact min_le_left _ _)

theorem length_relatedPairs_le (primary : List (Block × ℚ)) (all_blocks : List Block)
    (query_words : List String) (bm25_scores : List (String × ℚ)) (cap : ℕ) :
    (relatedPairs primary all_blocks query_words bm25_scores cap).length ≤ cap := by
  unfold relatedPairs
  split_ifs with h
  · rw [List.length_append]
    have h1 := length_graphRelated_le primary all_blocks query_words cap
    have h2 := length_fallbackFill_le all_blocks query_words bm25_scores
      (primary.map (fun r => r.1.file) ++
        (graphRelated primary all_blocks query_words cap).map Prod.fst)
      (cap - (graphRelated primary all_blocks query_words cap).length)
    omega
  · exact length_graphRelated_le primary all_blocks query_words cap

theorem relatedPairs_eq_graph_append (primary : List (Block × ℚ)) (all_blocks : List Block)
    (query_words : List String) (bm25_scores : List (String × ℚ)) (cap : ℕ) :
    ∃ tail, relatedPairs primary all_blocks query_words bm25_scores cap =
      graphRelated primary all_blocks query_words cap ++ tail := by
  unfold relatedPairs
  split_ifs with h
  · exact ⟨_, rfl⟩
  · exact ⟨[], (List.append_nil _).symm⟩

theorem mem_graphRelated_not_primary (primary : List (Block × ℚ)) (all_blocks : List Block)
    (query_words : List String) (cap : ℕ) (q : String × ℚ)
    (hq : q ∈ graphRelated primary all_blocks query_words cap) :
    q.1 ∉ primary.map (fun r => r.1.file) := by
  unfold graphRelated at hq
  have hq' := List.take_subset _ _ hq
  rw [mem_sortDesc] at hq'
  exact mem_keys_collectCandidates_elim primary all_blocks query_words _ q.1
    (List.mem_map_of_mem Prod.fst hq')

theorem mem_fallbackFill_not_seen (all_blocks : List Block) (query_words : List String)
    (bm25_scores : List (String × ℚ)) (seen : List String) (k : ℕ) (q : String × ℚ)
    (hq : q ∈ fallbackFill all_blocks query_words bm25_scores seen k) :
    q.1 ∉ seen := by
  unfold fallbackFill at hq
  split_ifs at hq
  · have hq' := List.take_subset _ _ hq
    rw [mem_sortDesc] at hq'
    rcases List.mem_map.mp hq' with ⟨b, hb, rfl⟩
    rcases List.mem_filter.mp hb with ⟨_, hcond⟩
    rw [Bool.and_eq_true] at hcond
    rcases hcond with ⟨h1, _⟩
    simpa using h1
  · have hq' := List.take_subset _ _ hq
    rw [mem_sortDesc] at hq'
    rcases List.mem_filter.mp hq' with ⟨_, hcond⟩
    rw [Bool.and_eq_true] at hcond
    rcases hcond with ⟨h1, _⟩
    simpa using h1

theorem mem_relatedPairs_not_primary (primary : List (Block × ℚ)) (all_blocks : List Block)
    (query_words : List String) (bm25_scores : List (String × ℚ)) (cap : ℕ) (q : String × ℚ)
    (hq : q ∈ relatedPairs primary all_blocks query_words bm25_scores cap) :
    q.1 ∉ primary.map (fun r => r.1.file) := by
  unfold relatedPairs at hq
  split_ifs at hq with h
  · rcases List.mem_append.mp hq with hg | hf
    · exact mem_graphRelated_not_primary primary all_blocks query_words cap q hg
    · have := mem_fallbackFill_not_seen all_blocks query_words bm25_scores _ _ q hf
      intro hmem
      exact this (List.mem_append.mpr (Or.inl hmem))
  · exact mem_graphRelated_not_primary primary all_blocks query_words cap q hq

theorem mem_get_related (primary : List (Block × ℚ)) (all_blocks : List Block)
    (query_words : List String) (bm25_scores : List (String × ℚ)) (cap : ℕ) (b : Block)
    (hb : b ∈ get_related primary all_blocks query_words bm25_scores cap) :
    b ∈ all_blocks ∧
      ∃ q ∈ relatedPairs primary all_blocks query_words bm25_scores cap, b.file = q.1 := by
  unfold get_related at hb
  rcases List.mem_filterMap.mp hb with ⟨q, hq, hfind⟩
  refine ⟨List.mem_of_find?_eq_some hfind, q, hq, ?_⟩
  have := List.find?_some hfind
  simpa using this

/-! ### Remaining small helpers -/

theorem listMax_eq_zero (l : List ℚ) (h : ∀ s ∈ l, s = 0) : listMax l = 0 := by
  cases l with
  | nil => rfl
  | cons x xs => exact h _ (listMax_mem (x :: xs) (List.cons_ne_nil x xs))

theorem connStep_dangling (all_blocks : List Block) (query_words : List String)
    (primary_files : List String) (cands : List (String × ℚ)) (c : String)
    (hd : all_blocks.find? (fun b => decide (b.file = c)) = none) :
    connStep all_blocks query_words primary_files cands c = cands := by
  unfold connStep
  split_ifs with h
  · rfl
  · rw [hd]

theorem collectCandidates_skip_dangling (pre post : List (Block × ℚ)) (fl tp sm : String)
    (itl : Bool) (l1 l2 : List String) (c : String) (s : ℚ) (all_blocks : List Block)
    (query_words : List String) (pf : List String)
    (hd : all_blocks.find? (fun b => decide (b.file = c)) = none) :
    collectCandidates (pre ++ (⟨fl, tp, sm, l1 ++ c :: l2, itl⟩, s) :: post)
        all_blocks query_words pf =
      collectCandidates (pre ++ (⟨fl, tp, sm, l1 ++ l2, itl⟩, s) :: post)
        all_blocks query_words pf := by
  unfold collectCandidates
  rw [List.foldl_append, List.foldl_append, List.foldl_cons, List.foldl_cons]
  have hstep : ∀ acc : List (String × ℚ),
      (l1 ++ c :: l2).foldl (connStep all_blocks query_words pf) acc =
        (l1 ++ l2).foldl (connStep all_blocks query_words pf) acc := by
    intro acc
    rw [List.foldl_append, List.foldl_append, List.foldl_cons,
      connStep_dangling all_blocks query_words pf _ c hd]
  exact congrArg
    (fun acc => List.foldl
      (fun cands pr => pr.1.connections.foldl (connStep all_blocks query_words pf) cands) acc post)
    (hstep _)

theorem mem_results_block (blocks : List Block) (raw fz : List ℚ) (top_n : ℕ)
    (p : Block × ℚ) (hp : p ∈ (query_blocks blocks raw fz top_n).results) :
    p.1 ∈ blocks := by
  unfold query_blocks at hp
  split_ifs at hp with h
  · have hp' := List.take_subset _ _ hp
    rcases mem_rankedList blocks raw p (List.mem_filter.mp hp').1 with ⟨b, s, hz, _, rfl⟩
    exact (List.of_mem_zip hz).1
  · rcases mem_fuzzyTop blocks fz top_n p hp with ⟨b, r, hz, _, rfl⟩
    exact (List.of_mem_zip hz).1

theorem mem_similar_block (blocks : List Block) (raw fz : List ℚ) (top_n : ℕ)
    (p : Block × ℚ) (hp : p ∈ (query_blocks blocks raw fz top_n).similar) :
    p.1 ∈ blocks := by
  unfold query_blocks at hp
  split_ifs at hp with h
  · have hp' := List.take_subset _ _ hp
    rcases mem_rankedList blocks raw p (List.mem_filter.mp hp').1 with ⟨b, s, hz, _, rfl⟩
    exact (List.of_mem_zip hz).1
  · cases hp

theorem take_ne_nil_of_ne_nil {α : Type} (l : List α) (n : ℕ) (hl : l ≠ []) (hn : 0 < n) :
    l.take n ≠ [] := by
  cases l with
  | nil => exact absurd rfl hl
  | cons x xs =>
    cases n with
    | zero => omega
    | succ m => simp [List.take_succ_cons]

/-! ### The claims -/

/-- C1: on the ranking-function path, results are exactly the ranked entries
with normalised score ≥ MATCH_THRESHOLD truncated to `top_n`, similar exactly
those with SIMILAR_FLOOR ≤ score < MATCH_THRESHOLD truncated to `top_n` (both
boundaries inclusive below, strict above), the two lists are disjoint, and no
entry scoring below SIMILAR_FLOOR appears in either. -/
theorem claim_C1 (blocks : List Block) (raw fz : List ℚ) (top_n : ℕ)
    (h : 3/10 < listMax raw) :
    (query_blocks blocks raw fz top_n).results =
      ((rankedList blocks raw).filter (fun p => decide (MATCH_THRESHOLD ≤ p.2))).take top_n ∧
    (query_blocks blocks raw fz top_n).similar =
      ((rankedList blocks raw).filter
        (fun p => decide (SIMILAR_FLOOR ≤ p.2) && decide (p.2 < MATCH_THRESHOLD))).take top_n ∧
    (∀ p ∈ (query_blocks blocks raw fz top_n).results, MATCH_THRESHOLD ≤ p.2) ∧
    (∀ p ∈ (query_blocks blocks raw fz top_n).similar,
      SIMILAR_FLOOR ≤ p.2 ∧ p.2 < MATCH_THRESHOLD) ∧
    (∀ p ∈ (query_blocks blocks raw fz top_n).results,
      p ∉ (query_blocks blocks raw fz top_n).similar) ∧
    (∀ p : Block × ℚ, p ∈ (query_blocks blocks raw fz top_n).results ∨
      p ∈ (query_blocks blocks raw fz top_n).similar → SIMILAR_FLOOR ≤ p.2) := by
  rw [query_blocks_bm25 blocks raw fz top_n h]
  have hres : ∀ p : Block × ℚ, p ∈ ((rankedList blocks raw).filter
      (fun p => decide (MATCH_THRESHOLD ≤ p.2))).take top_n → MATCH_THRESHOLD ≤ p.2 := by
    intro p hp
    have := (List.mem_filter.mp (List.take_subset _ _ hp)).2
    simpa using this
  have hsim : ∀ p : Block × ℚ, p ∈ ((rankedList blocks raw).filter
      (fun p => decide (SIMILAR_FLOOR ≤ p.2) && decide (p.2 < MATCH_THRESHOLD))).take top_n →
      SIMILAR_FLOOR ≤ p.2 ∧ p.2 < MATCH_THRESHOLD := by
    intro p hp
    have hc := (List.mem_filter.mp (List.take_subset _ _ hp)).2
    rw [Bool.and_eq_true] at hc
    exact ⟨by simpa using hc.1, by simpa using hc.2⟩
  refine ⟨rfl, rfl, hres, hsim, ?_, ?_⟩
  · intro p hp hps
    have h1 := hres p hp
    have h2 := (hsim p hps).2
    linarith
  · intro p hp
    rcases hp with hp | hp
    · have h1 := hres p hp
      have hle : SIMILAR_FLOOR ≤ MATCH_THRESHOLD := by
        rw [SIMILAR_FLOOR, MATCH_THRESHOLD]
        norm_num
      linarith
    · exact (hsim p hp).1

/-- C1 witness: a concrete corpus on the ranking-function path. -/
theorem claim_C1_witness :
    ((3:ℚ)/10 < listMax [1]) ∧
    (query_blocks [blkB] [1] [] 3).results =
      ((rankedList [blkB] [1]).filter (fun p => decide (MATCH_THRESHOLD ≤ p.2))).take 3 :=
  ⟨by decide, (claim_C1 [blkB] [1] [] 3 (by decide)).1⟩

/-- C2: if the maximum raw score is ≤ 0.3 the fuzzy fallback is used
exclusively — similar is empty, no score map is produced, and the method tag
is "fuzzy"; otherwise the ranking-function ("bm25") path is used. -/
theorem claim_C2 (blocks : List Block) (raw fz : List ℚ) (top_n : ℕ) :
    (listMax raw ≤ 3/10 →
      query_blocks blocks raw fz top_n = ⟨fuzzyTop blocks fz top_n, [], [], "fuzzy"⟩) ∧
    (3/10 < listMax raw → (query_blocks blocks raw fz top_n).method = "bm25") := by
  constructor
  · intro h
    exact query_blocks_fuzzy blocks raw fz top_n h
  · intro h
    rw [query_blocks_bm25 blocks raw fz top_n h]

/-- C2 witness: a low-signal corpus takes the fuzzy path; a strong one the
ranking-function path. -/
theorem claim_C2_witness :
    query_blocks [blkB] [0] [50] 3 = ⟨fuzzyTop [blkB] [50] 3, [], [], "fuzzy"⟩ ∧
    (query_blocks [blkB] [1] [] 3).method = "bm25" :=
  ⟨(claim_C2 [blkB] [0] [50] 3).1 (by decide), (claim_C2 [blkB] [1] [] 3).2 (by decide)⟩

/-- C3: the empty-query half holds — a query whose raw scores and fuzzy
ratios are all zero completes with empty results and similar — but on an
empty corpus the scorer construction itself fails (it divides by the corpus
size), so scoring crashes before any guard instead of yielding a gap:
`query_blocks_checked` returns `none` there. -/
theorem claim_C3 :
    query_blocks_checked [] [] [] 3 = none ∧
    query_blocks_checked [blkB] [0] [0] 3 = some (query_blocks [blkB] [0] [0] 3) ∧
    (query_blocks [blkB] [0] [0] 3).results = [] ∧
    (query_blocks [blkB] [0] [0] 3).similar = [] := by decide

/-- C4: on the fuzzy fallback path the result list is the ratio-≥-40 entries
sorted descending and truncated to `top_n`, each paired with its ratio
divided by 100 and rounded to 2 places (hence ≥ 0.40); entries below the
cutoff are excluded entirely, and scores are non-increasing. -/
theorem claim_C4 (blocks : List Block) (raw fz : List ℚ) (top_n : ℕ)
    (h : listMax raw ≤ 3/10) :
    (query_blocks blocks raw fz top_n).results = fuzzyTop blocks fz top_n ∧
    (query_blocks blocks raw fz top_n).results.length ≤ top_n ∧
    (∀ p ∈ (query_blocks blocks raw fz top_n).results,
      ∃ r, (p.1, r) ∈ blocks.zip fz ∧ (40:ℚ) ≤ r ∧ p.2 = round2 (r / 100) ∧ (2:ℚ)/5 ≤ p.2) ∧
    ((query_blocks blocks raw fz top_n).results).Pairwise (fun a b => b.2 ≤ a.2) ∧
    (query_blocks blocks raw fz top_n).similar = [] := by
  rw [query_blocks_fuzzy blocks raw fz top_n h]
  refine ⟨rfl, ?_, ?_, ?_, rfl⟩
  · show (fuzzyTop blocks fz top_n).length ≤ top_n
    unfold fuzzyTop
    rw [List.length_map, List.length_take]
    exact min_le_left _ _
  · intro p hp
    rcases mem_fuzzyTop blocks fz top_n p hp with ⟨b, r, hz, hr, rfl⟩
    refine ⟨r, hz, hr, rfl, ?_⟩
    have hbase : round2 ((40:ℚ)/100) = (2:ℚ)/5 := by decide
    have hmono := round2_mono ((40:ℚ)/100) (r/100) (by linarith)
    rw [hbase] at hmono
    exact hmono
  · show (fuzzyTop blocks fz top_n).Pairwise (fun a b => b.2 ≤ a.2)
    unfold fuzzyTop
    have hp1 := pairwise_sortDesc (Prod.snd)
      ((blocks.zip fz).filter (fun p => decide ((40:ℚ) ≤ p.2)))
    have hp2 := hp1.sublist (List.take_sublist top_n _)
    rw [List.pairwise_map]
    refine hp2.imp ?_
    intro a b hab
    exact round2_mono _ _ (by linarith)

/-- C4 witness: a concrete fuzzy-path query. -/
theorem claim_C4_witness :
    listMax [(0:ℚ)] ≤ 3/10 ∧
    (query_blocks [blkB] [0] [95] 3).results = fuzzyTop [blkB] [95] 3 :=
  ⟨by decide, (claim_C4 [blkB] [0] [95] 3 (by decide)).1⟩

/-- C5: no internal-flagged entry appears in the loaded store, nor in the
results, similar, or related lists computed from it. -/
theorem claim_C5 (data : IndexData) (raw fz : List ℚ) (top_n : ℕ)
    (primary : List (Block × ℚ)) (query_words : List String)
    (bm25_scores : List (String × ℚ)) (cap : ℕ) :
    (∀ b ∈ load_blocks data, b.internal = false) ∧
    (∀ p ∈ (query_blocks (load_blocks data) raw fz top_n).results, p.1.internal = false) ∧
    (∀ p ∈ (query_blocks (load_blocks data) raw fz top_n).similar, p.1.internal = false) ∧
    (∀ b ∈ get_related primary (load_blocks data) query_words bm25_scores cap,
      b.internal = false) := by
  have hstore : ∀ b ∈ load_blocks data, b.internal = false := by
    intro b hb
    have hb' : b ∈ (data.blocks ++ data.patterns).filter (fun b => !b.internal) := hb
    have := (List.mem_filter.mp hb').2
    simpa using this
  refine ⟨hstore, ?_, ?_, ?_⟩
  · intro p hp
    exact hstore p.1 (mem_results_block (load_blocks data) raw fz top_n p hp)
  · intro p hp
    exact hstore p.1 (mem_similar_block (load_blocks data) raw fz top_n p hp)
  · intro b hb
    exact hstore b
      (mem_get_related primary (load_blocks data) query_words bm25_scores cap b hb).1

/-- C5 witness: a store loaded from an index with one internal entry. -/
theorem claim_C5_witness : blkB.internal = false :=
  (claim_C5 idxW [1] [] 3 [] [] [] 3).1 blkB (by decide)

/-- C6: the related-entry list has at most `cap` entries and never contains
an entry whose identifier is that of a confident result (in particular an
entry is never related to itself). -/
theorem claim_C6 (primary : List (Block × ℚ)) (all_blocks : List Block)
    (query_words : List String) (bm25_scores : List (String × ℚ)) (cap : ℕ) :
    (get_related primary all_blocks query_words bm25_scores cap).length ≤ cap ∧
    (∀ b ∈ get_related primary all_blocks query_words bm25_scores cap,
      ∀ p ∈ primary, b.file ≠ p.1.file) := by
  constructor
  · have h1 : (get_related primary all_blocks query_words bm25_scores cap).length ≤
        (relatedPairs primary all_blocks query_words bm25_scores cap).length := by
      unfold get_related
      exact List.length_filterMap_le _ _
    exact le_trans h1 (length_relatedPairs_le primary all_blocks query_words bm25_scores cap)
  · intro b hb p hp
    rcases mem_get_related primary all_blocks query_words bm25_scores cap b hb with
      ⟨_, q, hq, hbf⟩
    have hnp := mem_relatedPairs_not_primary primary all_blocks query_words bm25_scores cap q hq
    intro heq
    apply hnp
    have hmem : p.1.file ∈ primary.map (fun r => r.1.file) :=
      List.mem_map_of_mem (fun r => r.1.file) hp
    rw [← hbf, heq]
    exact hmem

/-- C6 witness: a concrete expander run obeying the cap and the
no-self/no-primary rule. -/
theorem claim_C6_witness :
    (get_related [(blkA, 1)] cexBlocks ["q"] [] 3).length ≤ 3 ∧ blkB1.file ≠ blkA.file :=
  ⟨(claim_C6 [(blkA, 1)] cexBlocks ["q"] [] 3).1,
   (claim_C6 [(blkA, 1)] cexBlocks ["q"] [] 3).2 blkB1 (by decide) (blkA, 1) (by decide)⟩

/-- C7 counterexample: entry `blkA` is a confident result declaring a
connection to `blkB`; `blkB` is in the store, is not a confident result, and
has zero query-token overlap — yet `blkB` is not in the related list, because
three higher-scoring graph-hop candidates fill the cap first. -/
theorem claim_C7_cex :
    (blkA, (1:ℚ)) ∈ [(blkA, (1:ℚ))] ∧
    "b" ∈ blkA.connections ∧
    blkB ∈ cexBlocks ∧
    blkB.file = "b" ∧
    "b" ∉ [(blkA, (1:ℚ))].map (fun r => r.1.file) ∧
    score_words blkB ["q"] = 0 ∧
    blkB ∉ get_related [(blkA, 1)] cexBlocks ["q"] [] 3 := by decide

/-- C7 (amended): under the claim's premises and provided additionally that
the number of graph-hop candidates does not exceed `cap` (so truncation
cannot drop B), B appears in the related list, and the list resolves the
graph-hop segment ahead of the fallback-filled segment. -/
theorem claim_C7 (primary : List (Block × ℚ)) (all_blocks : List Block)
    (query_words : List String) (bm25_scores : List (String × ℚ)) (cap : ℕ)
    (A B : Block) (s : ℚ) (conn : String)
    (hA : (A, s) ∈ primary)
    (hconn : conn ∈ A.connections)
    (hnp : conn ∉ primary.map (fun r => r.1.file))
    (hfind : all_blocks.find? (fun b => decide (b.file = conn)) = some B)
    (hz : score_words B query_words = 0)
    (hsize : (collectCandidates primary all_blocks query_words
      (primary.map (fun r => r.1.file))).length ≤ cap) :
    B ∈ get_related primary all_blocks query_words bm25_scores cap ∧
    ∃ tail,
      relatedPairs primary all_blocks query_words bm25_scores cap =
        graphRelated primary all_blocks query_words cap ++ tail ∧
      get_related primary all_blocks query_words bm25_scores cap =
        (graphRelated primary all_blocks query_words cap).filterMap
          (fun q => all_blocks.find? (fun b => decide (b.file = q.1))) ++
        tail.filterMap (fun q => all_blocks.find? (fun b => decide (b.file = q.1))) := by
  have hkey : conn ∈ (collectCandidates primary all_blocks query_words
      (primary.map (fun r => r.1.file))).map Prod.fst :=
    mem_keys_collectCandidates_self primary all_blocks query_words _ A s conn B hA hconn
      hnp hfind
  rcases List.mem_map.mp hkey with ⟨q, hqc, hq1⟩
  have hgraph_full : graphRelated primary all_blocks query_words cap =
      sortDesc Prod.snd (collectCandidates primary all_blocks query_words
        (primary.map (fun r => r.1.file))) := by
    unfold graphRelated
    apply List.take_of_length_le
    rw [length_sortDesc]
    exact hsize
  have hq_graph : q ∈ graphRelated primary all_blocks query_words cap := by
    rw [hgraph_full, mem_sortDesc]
    exact hqc
  rcases relatedPairs_eq_graph_append primary all_blocks query_words bm25_scores cap with
    ⟨tail, htail⟩
  constructor
  · unfold get_related
    apply List.mem_filterMap.mpr
    refine ⟨q, ?_, ?_⟩
    · rw [htail]
      exact List.mem_append.mpr (Or.inl hq_graph)
    · rw [hq1]
      exact hfind
  · refine ⟨tail, htail, ?_⟩
    unfold get_related
    rw [htail, List.filterMap_append]

/-- C7 witness: with a single zero-overlap connected entry (one candidate,
cap 3), the target does appear in the related list. -/
theorem claim_C7_witness : wB ∈ get_related [(wA, 1)] wBlocks ["q"] [] 3 :=
  (claim_C7 [(wA, 1)] wBlocks ["q"] [] 3 wA wB 1 "wb" (by decide) (by decide) (by decide)
    (by decide) (by decide) (by decide)).1

/-- C8 counterexample: a ranking-function-path score vector with a negative
raw score — reachable because the external ranking function floors negative
idf values at epsilon times the average idf, itself negative when the
average is (four entries with topic "x", one also with summary "y", query
"x y" gives maximum raw about 0.52 and raw about −0.25 elsewhere) — puts a
normalised score below 0 into the full score map. -/
theorem claim_C8_cex :
    (3:ℚ)/10 < listMax c8Raw ∧
    ∃ p ∈ (query_blocks c8Blocks c8Raw [] 3).bm25_scores, p.2 < 0 := by decide

/-- C8 (amended): on the ranking-function path every normalised score in the
full score map is ≤ 1; a map entry normalised from a non-negative raw score
is also ≥ 0; and every normalised score in the ranked list (built only from
strictly positive raw scores) lies in [0, 1]. -/
theorem claim_C8 (blocks : List Block) (raw fz : List ℚ) (top_n : ℕ)
    (h : 3/10 < listMax raw) :
    (∀ p ∈ (query_blocks blocks raw fz top_n).bm25_scores, p.2 ≤ 1) ∧
    (∀ s ∈ raw, 0 ≤ s → 0 ≤ round2 (s / listMax raw)) ∧
    (∀ p ∈ rankedList blocks raw, 0 ≤ p.2 ∧ p.2 ≤ 1) := by
  have hmax : 0 < listMax raw := lt_trans (by norm_num) h
  refine ⟨?_, ?_, ?_⟩
  · rw [query_blocks_bm25 blocks raw fz top_n h]
    intro p hp
    rcases mem_scoreMap blocks raw p hp with ⟨b, s, hz, rfl⟩
    exact round2_le_one _ ((div_le_one hmax).mpr (le_listMax raw s (List.of_mem_zip hz).2))
  · intro s hs hpos
    exact round2_nonneg _ (div_nonneg hpos (le_of_lt hmax))
  · intro p hp
    rcases mem_rankedList blocks raw p hp with ⟨b, s, hz, hspos, rfl⟩
    constructor
    · exact round2_nonneg _ (div_nonneg (le_of_lt hspos) (le_of_lt hmax))
    · exact round2_le_one _ ((div_le_one hmax).mpr (le_listMax raw s (List.of_mem_zip hz).2))

/-- C8 witness: the amended upper bound at the very input whose map holds a
negative normalised score. -/
theorem claim_C8_witness :
    ((3:ℚ)/10 < listMax c8Raw) ∧
    ∀ p ∈ (query_blocks c8Blocks c8Raw [] 3).bm25_scores, p.2 ≤ 1 :=
  ⟨by decide, (claim_C8 c8Blocks c8Raw [] 3 (by decide)).1⟩

/-- C9: a declared connection whose target matches no entry in the store is
silently skipped: the expander's output is exactly what it would be had the
dangling identifier not been declared at all. -/
theorem claim_C9 (pre post : List (Block × ℚ)) (fl tp sm : String) (itl : Bool)
    (l1 l2 : List String) (c : String) (s : ℚ) (all_blocks : List Block)
    (query_words : List String) (bm25_scores : List (String × ℚ)) (cap : ℕ)
    (hdangling : all_blocks.find? (fun b => decide (b.file = c)) = none) :
    get_related (pre ++ (⟨fl, tp, sm, l1 ++ c :: l2, itl⟩, s) :: post) all_blocks
        query_words bm25_scores cap =
      get_related (pre ++ (⟨fl, tp, sm, l1 ++ l2, itl⟩, s) :: post) all_blocks
        query_words bm25_scores cap := by
  have hpf : (pre ++ ((⟨fl, tp, sm, l1 ++ c :: l2, itl⟩ : Block), s) :: post).map
      (fun r => r.1.file) =
      (pre ++ ((⟨fl, tp, sm, l1 ++ l2, itl⟩ : Block), s) :: post).map
        (fun r => r.1.file) := by
    simp
  have hcand : collectCandidates (pre ++ (⟨fl, tp, sm, l1 ++ c :: l2, itl⟩, s) :: post)
      all_blocks query_words
      ((pre ++ ((⟨fl, tp, sm, l1 ++ c :: l2, itl⟩ : Block), s) :: post).map
        (fun r => r.1.file)) =
      collectCandidates (pre ++ (⟨fl, tp, sm, l1 ++ l2, itl⟩, s) :: post)
      all_blocks query_words
      ((pre ++ ((⟨fl, tp, sm, l1 ++ l2, itl⟩ : Block), s) :: post).map
        (fun r => r.1.file)) := by
    rw [collectCandidates_skip_dangling pre post fl tp sm itl l1 l2 c s all_blocks
      query_words _ hdangling, hpf]
  unfold get_related relatedPairs graphRelated
  rw [hcand, hpf]

/-- C9 witness: a concrete dangling connection is skipped with no effect. -/
theorem claim_C9_witness :
    get_related ([] ++ (⟨"wa", "t", "", [] ++ "dang" :: [], false⟩, 1) :: []) wBlocks
        ["q"] [] 3 =
      get_related ([] ++ (⟨"wa", "t", "", [] ++ [], false⟩, 1) :: []) wBlocks ["q"] [] 3 :=
  claim_C9 [] [] "wa" "t" "" false [] [] "dang" 1 wBlocks ["q"] [] 3 (by decide)

/-- C10 (implicit): whenever the ranking-function path is taken (and at least
one result is requested), results is non-empty — the maximum-scoring entry
normalises to exactly 1 and is always included — so a gap can only arise on
the fuzzy path. -/
theorem claim_C10 (blocks : List Block) (raw fz : List ℚ) (top_n : ℕ)
    (hlen : raw.length = blocks.length) (h : 3/10 < listMax raw) (hn : 0 < top_n) :
    (query_blocks blocks raw fz top_n).results ≠ [] ∧
    round2 (listMax raw / listMax raw) = 1 ∧
    (query_blocks blocks raw fz top_n).method = "bm25" := by
  have hmax : 0 < listMax raw := lt_trans (by norm_num) h
  have hone : round2 (listMax raw / listMax raw) = 1 := by
    rw [div_self (ne_of_gt hmax)]
    exact round2_one
  have hraw_ne : raw ≠ [] := by
    intro hcon
    rw [hcon] at h
    norm_num [listMax] at h
  rcases List.getElem_of_mem (listMax_mem raw hraw_ne) with ⟨i, hi, hgeti⟩
  have hib : i < blocks.length := by omega
  have hzlen : i < (blocks.zip raw).length := by
    rw [List.length_zip]
    omega
  have hmem_zip : (blocks.get ⟨i, hib⟩, listMax raw) ∈ blocks.zip raw := by
    have hpair : (blocks.zip raw).get ⟨i, hzlen⟩ = (blocks.get ⟨i, hib⟩, listMax raw) := by
      rw [List.get_eq_getElem, List.getElem_zip, ← hgeti]
      rw [List.get_eq_getElem]
    rw [← hpair]
    exact List.get_mem _ _ hzlen
  have hmem_fil : (blocks.get ⟨i, hib⟩, listMax raw) ∈
      (blocks.zip raw).filter (fun p => decide (0 < p.2)) :=
    List.mem_filter.mpr ⟨hmem_zip, by simpa using hmax⟩
  have hmem_ranked : (blocks.get ⟨i, hib⟩, (1:ℚ)) ∈ rankedList blocks raw := by
    unfold rankedList
    rw [mem_sortDesc]
    have hm := List.mem_map_of_mem
      (fun p : Block × ℚ => (p.1, round2 (p.2 / listMax raw))) hmem_fil
    simpa [hone] using hm
  have hmem_res : (blocks.get ⟨i, hib⟩, (1:ℚ)) ∈
      (rankedList blocks raw).filter (fun p => decide (MATCH_THRESHOLD ≤ p.2)) :=
    List.mem_filter.mpr ⟨hmem_ranked, show decide (MATCH_THRESHOLD ≤ (1:ℚ)) = true by decide⟩
  refine ⟨?_, hone, ?_⟩
  · rw [query_blocks_bm25 blocks raw fz top_n h]
    show ((rankedList blocks raw).filter
      (fun p => decide (MATCH_THRESHOLD ≤ p.2))).take top_n ≠ []
    exact take_ne_nil_of_ne_nil _ top_n (List.ne_nil_of_mem hmem_res) hn
  · rw [query_blocks_bm25 blocks raw fz top_n h]

/-- C10 witness: a concrete strong-signal query has non-empty results. -/
theorem claim_C10_witness : (query_blocks [blkB] [1] [] 3).results ≠ [] :=
  (claim_C10 [blkB] [1] [] 3 (by decide) (by decide) (by decide)).1
